import Mathlib

/-!
Shallow embedding of the peer-reputation ledger module (src/EigenTrustAlgo.rs).

Modelling conventions:
* `f64` trust scores are modelled as exact rationals (`ℚ`); all arithmetic in the
  source is elementary (+, -, *, /, max, min) and is translated operation by
  operation.  `i64` timestamps are modelled as `ℤ`, `Pubkey` as the little-endian
  numeric value of its 32 bytes (`ℕ`).
* An `AccountInfo` is an entry of a host-owned store (`List Account`); the account
  handles passed to an instruction are indices into that store, so duplicated
  handles alias the same underlying slot exactly as duplicated `AccountInfo`s
  share one `RefCell` buffer on the host.
* Account data is modelled semantically: `AccountData.record s` stands for the
  exact 16-byte borsh encoding of a `CarTrustState`, and `AccountData.raw n`
  stands for `n` bytes that do not parse as one (borsh `try_from_slice` demands
  full consumption, so only an exactly-16-byte well-formed buffer parses).
  Serializing a record into an `n`-byte buffer succeeds iff `16 ≤ n`; when
  `n > 16` the trailing junk keeps the buffer unparseable, i.e. `raw n`.
* Errors returned through `?` are explicit: an operation returns
  `Option ProgError × List Account` — the error (if any) together with the store
  as left behind by the writes already performed.
-/

/-- Errors surfaced by the module (the `ProgramError` variants it can return,
plus `invalidHandle`, a model-only artifact for an index that does not denote a
store slot — unreachable for host-supplied handles). -/
inductive ProgError
  | invalidInstructionData
  | incorrectProgramId
  | incorrectAccountOwner
  | notEnoughAccountKeys
  | borshIoError
  | insufficientFunds
  | invalidHandle
deriving DecidableEq, Repr

/-- `CarTrustState` from the source: one car's persisted trust record. -/
structure CarTrustState where
  trust_score : ℚ
  last_updated_timestamp : ℤ
deriving DecidableEq, Repr

/-- The byte buffer backing one account, modelled semantically (see header). -/
inductive AccountData
  | raw (n : Nat)
  | record (s : CarTrustState)
deriving DecidableEq, Repr

/-- `data_len()` of the buffer. -/
def dataLen : AccountData → Nat
  | .raw n => n
  | .record _ => 16

/-- `CarTrustState::try_from_slice` on the buffer: succeeds exactly when the
buffer is the 16-byte encoding of a record (borsh requires full consumption). -/
def decodeData : AccountData → Option CarTrustState
  | .raw _ => none
  | .record s => some s

/-- `state.serialize(&mut &mut data[..])`: needs at least the 16 encoded bytes of
room; on a larger buffer the trailing bytes are untouched, so the result no
longer parses (`raw n`); on a smaller buffer the write fails (any partial write
leaves the short buffer unparseable, still `raw n`). -/
def serializeInto (s : CarTrustState) : AccountData → Option AccountData
  | .raw n => if n < 16 then none else if n = 16 then some (.record s) else some (.raw n)
  | .record _ => some (.record s)

/-- One host account: identity key, owner program, balance, data buffer. -/
structure Account where
  key : Nat
  owner : Nat
  lamports : Nat
  data : AccountData
deriving DecidableEq, Repr

abbrev Store := List Account

/-- Serialize a record into the slot at index `i` (the `serialize(... data.borrow_mut())?`
pattern); `none` is the propagated encoding error. -/
def writeRecord (store : Store) (i : Nat) (s : CarTrustState) : Option Store :=
  match store[i]? with
  | some a =>
    match serializeInto s a.data with
    | some d => some (store.set i { a with data := d })
    | none => none
  | none => none

/-- Rust `a.max(b)`: the greater of the two (no NaN in the rational model). -/
def ratMax (a b : ℚ) : ℚ := if a ≤ b then b else a

/-- Rust `a.min(b)`: the lesser of the two. -/
def ratMin (a b : ℚ) : ℚ := if b ≤ a then b else a

/-- Rust `x.max(0.0).min(1.0)` on a score. -/
def clampScore (x : ℚ) : ℚ := ratMin (ratMax x 0) 1

/-- `report_message_outcome` from the source, line by line: two account handles,
identity/ownership validation, decode of both records, time-decayed feedback
update of the sender's score with clamping, timestamp refresh of both records,
and the two write-backs (sender first, then reporter). -/
def report_message_outcome (pid : Nat) (store : Store) (idxs : List Nat)
    (reporter message_sender : Nat) (is_true : Bool) (clock : ℤ) :
    Option ProgError × Store :=
  match idxs with
  | ri :: si :: _ =>
    match store[ri]?, store[si]? with
    | some racc, some sacc =>
      if racc.key ≠ reporter ∨ racc.owner ≠ pid then (some .incorrectAccountOwner, store)
      else if sacc.key ≠ message_sender ∨ sacc.owner ≠ pid then (some .incorrectAccountOwner, store)
      else
        match decodeData racc.data with
        | none => (some .borshIoError, store)
        | some rst =>
          match decodeData sacc.data with
          | none => (some .borshIoError, store)
          | some sst =>
            let feedback_weight : ℚ := 0.1
            let time_decay_factor : ℚ := 0.0001
            let time_elapsed_reporter : ℚ := ((clock - rst.last_updated_timestamp : ℤ) : ℚ)
            let time_elapsed_sender : ℚ := ((clock - sst.last_updated_timestamp : ℤ) : ℚ)
            let decayed_reporter_trust := rst.trust_score * (1 - time_decay_factor * time_elapsed_reporter)
            let decayed_sender_trust := sst.trust_score * (1 - time_decay_factor * time_elapsed_sender)
            let updated :=
              if is_true then
                sst.trust_score + feedback_weight * decayed_reporter_trust * (1 - decayed_sender_trust)
              else
                sst.trust_score - feedback_weight * decayed_reporter_trust * decayed_sender_trust
            let sender_final : CarTrustState := ⟨clampScore updated, clock⟩
            let reporter_final : CarTrustState := ⟨rst.trust_score, clock⟩
            match writeRecord store si sender_final with
            | none => (some .borshIoError, store)
            | some store1 =>
              match writeRecord store1 ri reporter_final with
              | none => (some .borshIoError, store1)
              | some store2 => (none, store2)
    | _, _ => (some .invalidHandle, store)
  | _ => (some .notEnoughAccountKeys, store)

/-- The car-initialization operation (`fn initialize_car`): three handles
(car slot, payer, system program), owner check, idempotency check, then the
`create_account` invoke (debit payer by the rent-exempt amount for the 16-byte
span, fund and allocate the car slot) followed by the record write.  The host's
further `create_account` failure modes are irrelevant to the claims, which only
exercise the pre-allocation paths; insufficient payer balance is kept as the
representative host failure. -/
def init_car (pid : Nat) (store : Store) (idxs : List Nat)
    (initial_trust : ℚ) (clock : ℤ) (rent : Nat) : Option ProgError × Store :=
  match idxs with
  | ci :: pyi :: _sysi :: _ =>
    match store[ci]? with
    | some car =>
      if car.owner ≠ pid then (some .incorrectProgramId, store)
      else if 0 < dataLen car.data then (none, store)
      else
        let trust_state : CarTrustState := ⟨initial_trust, clock⟩
        match store[pyi]? with
        | some payer =>
          if payer.lamports < rent then (some .insufficientFunds, store)
          else
            let store1 :=
              ((store.set pyi { payer with lamports := payer.lamports - rent }).set ci
                { car with lamports := car.lamports + rent, data := .raw 16 })
            match writeRecord store1 ci trust_state with
            | none => (some .borshIoError, store1)
            | some store2 => (none, store2)
        | none => (some .invalidHandle, store)
    | none => (some .invalidHandle, store)
  | _ => (some .notEnoughAccountKeys, store)

/-! ### Batch trust recalculation (`fn update_trust_scores`)

`HashMap<Pubkey, _>` is modelled as an association list with replace-on-insert
semantics; iteration order is the insertion order (one admissible order of the
hash map, immaterial here because every per-key result below is order
independent: the sums are over a commutative monoid and the writes target
disjoint slots per key). -/

/-- `HashMap::insert`: replace an existing binding for the key, else append. -/
def insertA (k : Nat) (v : α) : List (Nat × α) → List (Nat × α)
  | [] => [(k, v)]
  | p :: t => if p.1 = k then (k, v) :: t else p :: insertA k v t

/-- `HashMap::get`: the binding of `k`, if present. -/
def lookupA (k : Nat) : List (Nat × α) → Option α
  | [] => none
  | p :: t => if p.1 = k then some p.2 else lookupA k t

/-- `HashMap::get_mut` followed by an in-place update of the entry. -/
def updateA (k : Nat) (v : α) : List (Nat × α) → List (Nat × α)
  | [] => []
  | p :: t => if p.1 = k then (k, v) :: t else p :: updateA k v t

/-- The collection loop of `update_trust_scores`: every supplied handle owned by
this program with non-empty data is decoded (a decode failure aborts via `?`,
returning `none` here) and inserted into both maps under its key. -/
def collect_states (pid : Nat) (store : Store) :
    List Nat → List (Nat × CarTrustState) → List (Nat × Nat) →
    Option (List (Nat × CarTrustState) × List (Nat × Nat))
  | [], states, infos => some (states, infos)
  | i :: rest, states, infos =>
    match store[i]? with
    | some a =>
      if a.owner = pid ∧ 0 < dataLen a.data then
        match decodeData a.data with
        | none => none
        | some st => collect_states pid store rest (insertA a.key st states) (insertA a.key i infos)
      else collect_states pid store rest states infos
    | none => collect_states pid store rest states infos

/-- The inner voter loop for one car: accumulate `weighted_sum` and
`total_trust_of_voters` over every other car, the agreement factor being the
source's `if let Some(account) = car_account_infos.get(car_id) { .. } else { 0.5 }`
expression. -/
def voter_sums (infos : List (Nat × Nat)) (car_id : Nat) (current_trust : CarTrustState)
    (states : List (Nat × CarTrustState)) : ℚ × ℚ :=
  states.foldl
    (fun acc vp =>
      if vp.1 ≠ car_id then
        (acc.1 + vp.2.trust_score *
            (match lookupA car_id infos with
             | some _ => if current_trust.trust_score > 0.5 then 1 else 0
             | none => 0.5),
         acc.2 + vp.2.trust_score)
      else acc)
    (0, 0)

/-- One car's clamped new score for an iteration (`alpha = 0.85`,
`initial_trust = 0.6`). -/
def new_score_of (infos : List (Nat × Nat)) (states : List (Nat × CarTrustState))
    (car_id : Nat) (current_trust : CarTrustState) : ℚ :=
  let sums := voter_sums infos car_id current_trust states
  let normalized_weighted_sum := if sums.2 > 0 then sums.1 / sums.2 else 0.5
  let alpha : ℚ := 0.85
  let initial_trust : ℚ := 0.6
  ratMin (ratMax (alpha * normalized_weighted_sum + (1 - alpha) * initial_trust) 0) 1

/-- The first inner loop of an iteration: insert every car's clamped new score
into `new_trust_scores` (which persists across iterations, hence the `ns`
accumulator). -/
def compute_new_scores (infos : List (Nat × Nat)) (states : List (Nat × CarTrustState))
    (ns : List (Nat × ℚ)) : List (Nat × ℚ) :=
  states.foldl (fun acc p => insertA p.1 (new_score_of infos states p.1 p.2) acc) ns

/-- The second inner loop of an iteration: for every entry of `new_trust_scores`,
`get_mut` the car's state and overwrite score and timestamp. -/
def apply_new_scores (clock : ℤ) (ns : List (Nat × ℚ)) (states : List (Nat × CarTrustState)) :
    List (Nat × CarTrustState) :=
  ns.foldl (fun sts p => updateA p.1 ⟨p.2, clock⟩ sts) states

/-- The `for _iteration in 0..5` loop, with the persistent `new_trust_scores`
accumulator threaded through. -/
def trust_rounds (infos : List (Nat × Nat)) (clock : ℤ) :
    Nat → List (Nat × CarTrustState) → List (Nat × ℚ) → List (Nat × CarTrustState)
  | 0, states, _ => states
  | n + 1, states, ns =>
    let ns1 := compute_new_scores infos states ns
    trust_rounds infos clock n (apply_new_scores clock ns1 states) ns1

/-- The final serialization loop: for each collected car, look up its slot and
serialize the final record into it; the first failing write aborts via `?`,
leaving the earlier writes in place. -/
def write_back (infos : List (Nat × Nat)) :
    List (Nat × CarTrustState) → Store → Option ProgError × Store
  | [], store => (none, store)
  | (k, st) :: rest, store =>
    match lookupA k infos with
    | some i =>
      match writeRecord store i st with
      | none => (some .borshIoError, store)
      | some store1 => write_back infos rest store1
    | none => write_back infos rest store

/-- `fn update_trust_scores`: collect, run 5 iterations, write everything back.
An empty collection returns success with no further work. -/
def update_trust_scores (pid : Nat) (store : Store) (idxs : List Nat) (clock : ℤ) :
    Option ProgError × Store :=
  match collect_states pid store idxs [] [] with
  | none => (some .borshIoError, store)
  | some (states, infos) =>
    if states = [] then (none, store)
    else write_back infos (trust_rounds infos clock 5 states []) store

/-! ### Instruction wire format and dispatcher

`TrustInstruction` is borsh-encoded: a single `u8` variant tag, then the fields
in declaration order as fixed-width little-endian bytes; `try_from_slice`
additionally demands that the whole buffer is consumed.  The borsh `f64`
deserializer rejects NaN bit patterns and the `bool` deserializer accepts only
0 or 1.  A payload is a `List ℕ` of bytes; an `f64` field is carried as its
64-bit pattern, a `Pubkey` as the value of its 32 little-endian bytes. -/

/-- The decoded instruction envelope (enum `TrustInstruction`). -/
inductive TrustInstruction
  | initCar (initial_trust_bits : Nat)
  | reportMessageOutcome (reporter message_sender : Nat) (is_true : Bool)
  | updateTrustScores
deriving DecidableEq, Repr

/-- Little-endian value of a byte list. -/
def leValue : List Nat → Nat
  | [] => 0
  | b :: t => b % 256 + 256 * leValue t

/-- Whether a 64-bit pattern is an IEEE-754 NaN (exponent all ones, non-zero
mantissa); borsh rejects such `f64` payloads. -/
def isNanBits (n : Nat) : Bool := (n / 2 ^ 52) % 2 ^ 11 = 2047 ∧ n % 2 ^ 52 ≠ 0

/-- `TrustInstruction::try_from_slice`: 1-byte tag 0/1/2, then the variant's
fields, full consumption required. -/
def decodeInstruction : List Nat → Option TrustInstruction
  | 0 :: rest =>
    if rest.length = 8 then
      if isNanBits (leValue rest) then none else some (.initCar (leValue rest))
    else none
  | 1 :: rest =>
    if rest.length = 65 then
      match rest.drop 64 with
      | [b] =>
        if b = 0 then some (.reportMessageOutcome (leValue (rest.take 32)) (leValue ((rest.drop 32).take 32)) false)
        else if b = 1 then some (.reportMessageOutcome (leValue (rest.take 32)) (leValue ((rest.drop 32).take 32)) true)
        else none
      | _ => none
    else none
  | [2] => some .updateTrustScores
  | _ => none

/-- The finite value of an IEEE-754 double given its bit pattern.  NaN never
reaches this point (rejected at decode); the two infinities have no rational
value and are mapped to 0 — no claim depends on them. -/
def f64bitsToRat (n : Nat) : ℚ :=
  let sign : ℚ := if n / 2 ^ 63 % 2 = 1 then -1 else 1
  let ex : ℕ := n / 2 ^ 52 % 2 ^ 11
  let m : ℕ := n % 2 ^ 52
  if ex = 0 then sign * (m : ℚ) / 2 ^ 1074
  else if ex = 2047 then 0
  else sign * ((2 ^ 52 + m : ℕ) : ℚ) * (2 : ℚ) ^ ((ex : ℤ) - 1075)

/-- `fn process_instruction`: decode the payload (failure → `InvalidInstructionData`
before any account is touched) and dispatch to the matching operation. -/
def process_instruction (pid : Nat) (store : Store) (idxs : List Nat)
    (instruction_data : List Nat) (clock : ℤ) (rent : Nat) : Option ProgError × Store :=
  match decodeInstruction instruction_data with
  | none => (some .invalidInstructionData, store)
  | some (.initCar bits) => init_car pid store idxs (f64bitsToRat bits) clock rent
  | some (.reportMessageOutcome r s b) => report_message_outcome pid store idxs r s b clock
  | some .updateTrustScores => update_trust_scores pid store idxs clock

example : clampScore (3 : ℚ) = 1 := by norm_num [clampScore, ratMax, ratMin]
example : decodeInstruction [2] = some .updateTrustScores := by decide
example : decodeInstruction [2, 0, 0, 0] = none := by decide
example : decodeInstruction [3] = none := by decide

/-! ### Derived formulas used in claim statements -/

/-- The time-decayed score of one party:
`trust_score * (1 - time_decay_factor * elapsed_seconds)`. -/
def decayedScore (s : CarTrustState) (clock : ℤ) : ℚ :=
  s.trust_score * (1 - 0.0001 * ((clock - s.last_updated_timestamp : ℤ) : ℚ))

/-- The unclamped feedback update of the sender's score. -/
def feedbackUpdate (rst sst : CarTrustState) (is_true : Bool) (clock : ℤ) : ℚ :=
  if is_true then
    sst.trust_score + 0.1 * decayedScore rst clock * (1 - decayedScore sst clock)
  else
    sst.trust_score - 0.1 * decayedScore rst clock * decayedScore sst clock

/-! ### Basic lemmas -/

theorem clampScore_nonneg (x : ℚ) : 0 ≤ clampScore x := by
  unfold clampScore ratMin ratMax
  split_ifs <;> linarith

theorem clampScore_le_one (x : ℚ) : clampScore x ≤ 1 := by
  unfold clampScore ratMin ratMax
  split_ifs <;> linarith

theorem isSome_of_getElem?_eq_some {α : Type} {l : List α} {i : Nat} {a : α}
    (h : l[i]? = some a) : i < l.length := by
  by_contra hlt
  rw [List.getElem?_eq_none (Nat.le_of_not_lt hlt)] at h
  exact Option.noConfusion h

theorem writeRecord_of_record (store : Store) (i : Nat) (a : Account) (t s : CarTrustState)
    (ha : store[i]? = some a) (hd : a.data = .record t) :
    writeRecord store i s = some (store.set i { a with data := .record s }) := by
  simp [writeRecord, ha, hd, serializeInto]

/-- Master success lemma for `report_message_outcome` when the two handles are
distinct slots: validation passes, both records decode, both writes land. -/
theorem report_success_ne (pid : Nat) (store : Store) (ri si : Nat) (rest : List Nat)
    (reporter message_sender : Nat) (is_true : Bool) (clock : ℤ)
    (racc sacc : Account) (rst sst : CarTrustState)
    (hne : ri ≠ si)
    (hr : store[ri]? = some racc) (hs : store[si]? = some sacc)
    (hrk : racc.key = reporter) (hro : racc.owner = pid)
    (hsk : sacc.key = message_sender) (hso : sacc.owner = pid)
    (hrd : racc.data = .record rst) (hsd : sacc.data = .record sst) :
    report_message_outcome pid store (ri :: si :: rest) reporter message_sender is_true clock =
      (none,
        (store.set si
            { sacc with data := .record ⟨clampScore (feedbackUpdate rst sst is_true clock), clock⟩ }).set ri
          { racc with data := .record ⟨rst.trust_score, clock⟩ }) := by
  have hw1 := writeRecord_of_record store si sacc sst
    ⟨clampScore (feedbackUpdate rst sst is_true clock), clock⟩ hs hsd
  have hr1 : (store.set si
      { sacc with data := .record ⟨clampScore (feedbackUpdate rst sst is_true clock), clock⟩ })[ri]? =
      some racc := by
    rw [List.getElem?_set_ne (fun h => hne h.symm)]
    exact hr
  have hw2 := writeRecord_of_record _ ri racc rst ⟨rst.trust_score, clock⟩ hr1 hrd
  have hc1 : ¬(racc.key ≠ reporter ∨ racc.owner ≠ pid) := by simp [hrk, hro]
  have hc2 : ¬(sacc.key ≠ message_sender ∨ sacc.owner ≠ pid) := by simp [hsk, hso]
  simp only [feedbackUpdate, decayedScore] at hw1 hw2 ⊢
  simp only [report_message_outcome, hr, hs, if_neg hc1, if_neg hc2, hrd, hsd, decodeData,
    hw1, hw2]

/-- Master success lemma for an aliased self-report: the same slot is supplied in
both positions, so the reporter's record (score untouched) overwrites the
sender-side update. -/
theorem report_success_alias (pid : Nat) (store : Store) (i : Nat) (rest : List Nat)
    (key : Nat) (is_true : Bool) (clock : ℤ) (acc : Account) (st : CarTrustState)
    (ha : store[i]? = some acc) (hk : acc.key = key) (ho : acc.owner = pid)
    (hd : acc.data = .record st) :
    report_message_outcome pid store (i :: i :: rest) key key is_true clock =
      (none, store.set i { acc with data := .record ⟨st.trust_score, clock⟩ }) := by
  have hw1 := writeRecord_of_record store i acc st
    ⟨clampScore (feedbackUpdate st st is_true clock), clock⟩ ha hd
  have hlen : i < store.length := isSome_of_getElem?_eq_some ha
  have hr1 : (store.set i
      { acc with data := .record ⟨clampScore (feedbackUpdate st st is_true clock), clock⟩ })[i]? =
      some { acc with data := .record ⟨clampScore (feedbackUpdate st st is_true clock), clock⟩ } :=
    List.getElem?_set_self hlen
  have hw2 := writeRecord_of_record _ i
    { acc with data := .record ⟨clampScore (feedbackUpdate st st is_true clock), clock⟩ }
    ⟨clampScore (feedbackUpdate st st is_true clock), clock⟩ ⟨st.trust_score, clock⟩ hr1 rfl
  have hc1 : ¬(acc.key ≠ key ∨ acc.owner ≠ pid) := by simp [hk, ho]
  simp only [feedbackUpdate, decayedScore] at hw1 hw2 ⊢
  simp only [report_message_outcome, ha, if_neg hc1, hd, decodeData, hw1, hw2, List.set_set]

/-- Failed identity/ownership validation short-circuits with
`IncorrectAccountOwner` before anything is read or written. -/
theorem report_validation_fails (pid : Nat) (store : Store) (ri si : Nat) (rest : List Nat)
    (reporter message_sender : Nat) (is_true : Bool) (clock : ℤ)
    (racc sacc : Account)
    (hr : store[ri]? = some racc) (hs : store[si]? = some sacc)
    (hbad : (racc.key ≠ reporter ∨ racc.owner ≠ pid) ∨
      (sacc.key ≠ message_sender ∨ sacc.owner ≠ pid)) :
    report_message_outcome pid store (ri :: si :: rest) reporter message_sender is_true clock =
      (some .incorrectAccountOwner, store) := by
  simp only [report_message_outcome, hr, hs]
  by_cases h1 : racc.key ≠ reporter ∨ racc.owner ≠ pid
  · rw [if_pos h1]
  · have h2 : sacc.key ≠ message_sender ∨ sacc.owner ≠ pid := hbad.resolve_left h1
    rw [if_neg h1, if_pos h2]
example :
    (report_message_outcome 1 [⟨10, 1, 0, .record ⟨0.9, 0⟩⟩, ⟨11, 1, 0, .record ⟨0.5, 0⟩⟩]
      [0, 1] 10 11 true 0).1 = none := by decide
example :
    (report_message_outcome 1 [⟨10, 1, 0, .record ⟨0.9, 0⟩⟩, ⟨11, 1, 0, .record ⟨0.5, 0⟩⟩]
      [0, 1] 10 11 true 0).2[1]? = some ⟨11, 1, 0, .record ⟨0.545, 0⟩⟩ := by
  norm_num [report_message_outcome, writeRecord, serializeInto, decodeData, clampScore,
    ratMax, ratMin]

/-! ### Claims C3, C4, C6, C7, C8, C9, C10 -/

/-- Claim C3, counterexample: with a reporter score of 20 (records may hold any
value at creation) and zero elapsed time, the claim's unclamped formula yields
-1/2, but the stored sender score is the clamped 0 — so the stored score is not
"computed exactly as" the claim's formula. -/
theorem c3_counterexample :
    (report_message_outcome 1
        [⟨10, 1, 0, .record ⟨20, 0⟩⟩, ⟨11, 1, 0, .record ⟨0.5, 0⟩⟩]
        [0, 1] 10 11 false 0).2[1]? =
      some ⟨11, 1, 0, .record ⟨0, 0⟩⟩ ∧
    feedbackUpdate ⟨20, 0⟩ ⟨0.5, 0⟩ false 0 = -0.5 ∧ (0 : ℚ) ≠ -0.5 := by
  refine ⟨?_, by norm_num [feedbackUpdate, decayedScore], by norm_num⟩
  norm_num [report_message_outcome, writeRecord, serializeInto, decodeData, clampScore,
    ratMax, ratMin, feedbackUpdate, decayedScore]

/-- Claim C3 as amended: for a successful report on two valid, decodable records
in distinct slots, the stored sender score is the claim's formula — decayed
scores `trust_score * (1 - 0.0001 * elapsed)` left unclamped, the is_true/not
branches as stated — with the final result clamped to [0, 1] before storing. -/
theorem c3_report_formula (pid : Nat) (store : Store) (ri si : Nat) (rest : List Nat)
    (reporter message_sender : Nat) (is_true : Bool) (clock : ℤ)
    (racc sacc : Account) (rst sst : CarTrustState)
    (hne : ri ≠ si)
    (hr : store[ri]? = some racc) (hs : store[si]? = some sacc)
    (hrk : racc.key = reporter) (hro : racc.owner = pid)
    (hsk : sacc.key = message_sender) (hso : sacc.owner = pid)
    (hrd : racc.data = .record rst) (hsd : sacc.data = .record sst) :
    ∃ store2,
      report_message_outcome pid store (ri :: si :: rest) reporter message_sender is_true clock =
        (none, store2) ∧
      store2[si]? =
        some { sacc with
          data := .record ⟨clampScore (feedbackUpdate rst sst is_true clock), clock⟩ } := by
  refine ⟨_, report_success_ne pid store ri si rest reporter message_sender is_true clock
    racc sacc rst sst hne hr hs hrk hro hsk hso hrd hsd, ?_⟩
  rw [List.getElem?_set_ne hne, List.getElem?_set_self (isSome_of_getElem?_eq_some hs)]

/-- Claim C3 amended, witness: reporter 0.9, sender 0.5, zero elapsed time. -/
theorem c3_witness :
    ∃ store2,
      report_message_outcome 1
          [⟨10, 1, 0, .record ⟨0.9, 0⟩⟩, ⟨11, 1, 0, .record ⟨0.5, 0⟩⟩]
          (0 :: 1 :: []) 10 11 true 0 = (none, store2) ∧
      store2[1]? =
        some ⟨11, 1, 0,
          .record ⟨clampScore (feedbackUpdate ⟨0.9, 0⟩ ⟨0.5, 0⟩ true 0), 0⟩⟩ :=
  c3_report_formula 1 [⟨10, 1, 0, .record ⟨0.9, 0⟩⟩, ⟨11, 1, 0, .record ⟨0.5, 0⟩⟩]
    0 1 [] 10 11 true 0 ⟨10, 1, 0, .record ⟨0.9, 0⟩⟩ ⟨11, 1, 0, .record ⟨0.5, 0⟩⟩
    ⟨0.9, 0⟩ ⟨0.5, 0⟩ (by decide) rfl rfl rfl rfl rfl rfl rfl rfl

/-- Claim C4, counterexample: an aliased self-report (same slot supplied in both
positions, reporter = sender) with an initial score of 5 succeeds, and the
sender's slot afterwards still stores 5 — outside [0, 1] — because the
reporter's record overwrites the clamped sender update. -/
theorem c4_counterexample :
    report_message_outcome 1 [⟨7, 1, 0, .record ⟨5, 0⟩⟩] [0, 0] 7 7 true 0 =
      (none, [⟨7, 1, 0, .record ⟨5, 0⟩⟩]) ∧ ¬((5 : ℚ) ≤ 1) := by
  constructor
  · norm_num [report_message_outcome, writeRecord, serializeInto, decodeData, clampScore,
      ratMax, ratMin]
  · norm_num

/-- Claim C4 as amended: for every successful report whose two handles are
distinct slots, the sender's stored trust score afterwards lies in [0, 1],
whatever the pre-call scores and timestamps (an aliased self-report instead
leaves the reporter's original, unclamped score — see C10). -/
theorem c4_score_in_range (pid : Nat) (store : Store) (ri si : Nat) (rest : List Nat)
    (reporter message_sender : Nat) (is_true : Bool) (clock : ℤ)
    (racc sacc : Account) (rst sst : CarTrustState)
    (hne : ri ≠ si)
    (hr : store[ri]? = some racc) (hs : store[si]? = some sacc)
    (hrk : racc.key = reporter) (hro : racc.owner = pid)
    (hsk : sacc.key = message_sender) (hso : sacc.owner = pid)
    (hrd : racc.data = .record rst) (hsd : sacc.data = .record sst) :
    ∃ store2 a s,
      report_message_outcome pid store (ri :: si :: rest) reporter message_sender is_true clock =
        (none, store2) ∧
      store2[si]? = some a ∧ a.data = .record s ∧
      0 ≤ s.trust_score ∧ s.trust_score ≤ 1 := by
  refine ⟨_,
    { sacc with data := .record ⟨clampScore (feedbackUpdate rst sst is_true clock), clock⟩ },
    ⟨clampScore (feedbackUpdate rst sst is_true clock), clock⟩,
    report_success_ne pid store ri si rest reporter message_sender is_true clock
      racc sacc rst sst hne hr hs hrk hro hsk hso hrd hsd, ?_, rfl,
    clampScore_nonneg _, clampScore_le_one _⟩
  rw [List.getElem?_set_ne hne, List.getElem?_set_self (isSome_of_getElem?_eq_some hs)]

/-- Claim C4 amended, witness: a stale-timestamp report whose raw update would
fall outside [0, 1] still stores an in-range score. -/
theorem c4_witness :
    ∃ store2 a s,
      report_message_outcome 1
          [⟨10, 1, 0, .record ⟨1, -200000⟩⟩, ⟨11, 1, 0, .record ⟨0.5, -200000⟩⟩]
          (0 :: 1 :: []) 10 11 false 0 = (none, store2) ∧
      store2[1]? = some a ∧ a.data = .record s ∧
      0 ≤ s.trust_score ∧ s.trust_score ≤ 1 :=
  c4_score_in_range 1
    [⟨10, 1, 0, .record ⟨1, -200000⟩⟩, ⟨11, 1, 0, .record ⟨0.5, -200000⟩⟩]
    0 1 [] 10 11 false 0 ⟨10, 1, 0, .record ⟨1, -200000⟩⟩ ⟨11, 1, 0, .record ⟨0.5, -200000⟩⟩
    ⟨1, -200000⟩ ⟨0.5, -200000⟩ (by decide) rfl rfl rfl rfl rfl rfl rfl rfl

/-- Claim C6 (confirmed): a reporter or sender handle whose identity differs from
the corresponding instruction argument, or whose owner differs from this module,
makes the operation fail with `IncorrectAccountOwner` with the store — hence both
accounts' bytes — unmodified. -/
theorem c6_ownership_mismatch (pid : Nat) (store : Store) (ri si : Nat) (rest : List Nat)
    (reporter message_sender : Nat) (is_true : Bool) (clock : ℤ)
    (racc sacc : Account)
    (hr : store[ri]? = some racc) (hs : store[si]? = some sacc)
    (hbad : (racc.key ≠ reporter ∨ racc.owner ≠ pid) ∨
      (sacc.key ≠ message_sender ∨ sacc.owner ≠ pid)) :
    report_message_outcome pid store (ri :: si :: rest) reporter message_sender is_true clock =
      (some .incorrectAccountOwner, store) :=
  report_validation_fails pid store ri si rest reporter message_sender is_true clock
    racc sacc hr hs hbad

/-- Claim C6, witness: a reporter handle whose key differs from the instruction's
`reporter` argument. -/
theorem c6_witness :
    report_message_outcome 1
        [⟨10, 1, 0, .record ⟨0.9, 0⟩⟩, ⟨11, 1, 0, .record ⟨0.5, 0⟩⟩]
        (0 :: 1 :: []) 99 11 true 0 =
      (some .incorrectAccountOwner,
        [⟨10, 1, 0, .record ⟨0.9, 0⟩⟩, ⟨11, 1, 0, .record ⟨0.5, 0⟩⟩]) :=
  c6_ownership_mismatch 1
    [⟨10, 1, 0, .record ⟨0.9, 0⟩⟩, ⟨11, 1, 0, .record ⟨0.5, 0⟩⟩]
    0 1 [] 99 11 true 0 ⟨10, 1, 0, .record ⟨0.9, 0⟩⟩ ⟨11, 1, 0, .record ⟨0.5, 0⟩⟩
    rfl rfl (by decide)

/-- Claim C7 (confirmed): a successful report never changes the reporter's stored
trust score — the reporter's slot afterwards holds its original score with only
the timestamp advanced to the clock — and the sender's stored timestamp is that
same clock value in either branch (including the aliased self-report case). -/
theorem c7_reporter_frame (pid : Nat) (store : Store) (ri si : Nat) (rest : List Nat)
    (reporter message_sender : Nat) (is_true : Bool) (clock : ℤ)
    (racc sacc : Account) (rst sst : CarTrustState)
    (hr : store[ri]? = some racc) (hs : store[si]? = some sacc)
    (hrk : racc.key = reporter) (hro : racc.owner = pid)
    (hsk : sacc.key = message_sender) (hso : sacc.owner = pid)
    (hrd : racc.data = .record rst) (hsd : sacc.data = .record sst) :
    ∃ store2,
      report_message_outcome pid store (ri :: si :: rest) reporter message_sender is_true clock =
        (none, store2) ∧
      store2[ri]? = some { racc with data := .record ⟨rst.trust_score, clock⟩ } ∧
      (∃ a s, store2[si]? = some a ∧ a.data = .record s ∧
        s.last_updated_timestamp = clock) := by
  by_cases hcase : ri = si
  · subst hcase
    have hacc : racc = sacc := by rw [hr] at hs; exact Option.some.injEq .. ▸ hs.symm ▸ rfl
    subst hacc
    have hst : rst = sst := by
      rw [hrd] at hsd; exact (AccountData.record.injEq ..).mp hsd
    subst hst
    have hkey : reporter = message_sender := by rw [← hrk, hsk]
    subst hkey
    have h := report_success_alias pid store ri rest reporter is_true clock racc rst hr hrk hro hrd
    refine ⟨_, h, ?_, ?_⟩
    · exact List.getElem?_set_self (isSome_of_getElem?_eq_some hr)
    · exact ⟨_, ⟨rst.trust_score, clock⟩,
        List.getElem?_set_self (isSome_of_getElem?_eq_some hr), rfl, rfl⟩
  · have h := report_success_ne pid store ri si rest reporter message_sender is_true clock
      racc sacc rst sst hcase hr hs hrk hro hsk hso hrd hsd
    refine ⟨_, h, ?_, ?_⟩
    · rw [List.getElem?_set_self]
      simp only [List.length_set]
      exact isSome_of_getElem?_eq_some hr
    · refine ⟨{ sacc with
          data := .record ⟨clampScore (feedbackUpdate rst sst is_true clock), clock⟩ },
        ⟨clampScore (feedbackUpdate rst sst is_true clock), clock⟩, ?_, rfl, rfl⟩
      rw [List.getElem?_set_ne hcase,
        List.getElem?_set_self (isSome_of_getElem?_eq_some hs)]

/-- Claim C7, witness: a false report between two distinct records. -/
theorem c7_witness :
    ∃ store2,
      report_message_outcome 1
          [⟨10, 1, 0, .record ⟨0.9, 5⟩⟩, ⟨11, 1, 0, .record ⟨0.5, 5⟩⟩]
          (0 :: 1 :: []) 10 11 false 9 = (none, store2) ∧
      store2[0]? = some ⟨10, 1, 0, .record ⟨0.9, 9⟩⟩ ∧
      (∃ a s, store2[1]? = some a ∧ a.data = .record s ∧
        s.last_updated_timestamp = 9) :=
  c7_reporter_frame 1 [⟨10, 1, 0, .record ⟨0.9, 5⟩⟩, ⟨11, 1, 0, .record ⟨0.5, 5⟩⟩]
    0 1 [] 10 11 false 9 ⟨10, 1, 0, .record ⟨0.9, 5⟩⟩ ⟨11, 1, 0, .record ⟨0.5, 5⟩⟩
    ⟨0.9, 5⟩ ⟨0.5, 5⟩ rfl rfl rfl rfl rfl rfl rfl rfl

/-- Claim C8 (confirmed): initializing a car whose slot is owned by this module
and already holds non-zero-length data returns success and modifies nothing — no
store change, hence no score/timestamp change and no funding debit. -/
theorem c8_idempotent_init (pid : Nat) (store : Store) (ci pyi sysi : Nat) (rest : List Nat)
    (initial_trust : ℚ) (clock : ℤ) (rent : Nat) (car : Account)
    (hc : store[ci]? = some car) (ho : car.owner = pid) (hlen : 0 < dataLen car.data) :
    init_car pid store (ci :: pyi :: sysi :: rest) initial_trust clock rent = (none, store) := by
  have hno : ¬car.owner ≠ pid := by simp [ho]
  simp only [init_car, hc, if_neg hno, if_pos hlen]

/-- Claim C8, witness: re-initializing a populated record slot is a no-op
success. -/
theorem c8_witness :
    init_car 1 [⟨10, 1, 30, .record ⟨0.75, 4⟩⟩, ⟨20, 0, 100, .raw 0⟩, ⟨30, 0, 0, .raw 0⟩]
        (0 :: 1 :: 2 :: []) 0.2 99 50 =
      (none, [⟨10, 1, 30, .record ⟨0.75, 4⟩⟩, ⟨20, 0, 100, .raw 0⟩, ⟨30, 0, 0, .raw 0⟩]) :=
  c8_idempotent_init 1 [⟨10, 1, 30, .record ⟨0.75, 4⟩⟩, ⟨20, 0, 100, .raw 0⟩, ⟨30, 0, 0, .raw 0⟩]
    0 1 2 [] 0.2 99 50 ⟨10, 1, 30, .record ⟨0.75, 4⟩⟩ rfl rfl (by decide)

/-- Claim C9 (confirmed): a payload that does not decode makes
`process_instruction` fail with `InvalidInstructionData` for every store and
account list, the store returned unchanged — no account is read or written. -/
theorem c9_malformed_payload (pid : Nat) (store : Store) (idxs : List Nat)
    (instruction_data : List Nat) (clock : ℤ) (rent : Nat)
    (h : decodeInstruction instruction_data = none) :
    process_instruction pid store idxs instruction_data clock rent =
      (some .invalidInstructionData, store) := by
  simp only [process_instruction, h]

/-- Claim C9, witness: the unknown tag 3 (and, the same way, any truncated
buffer) is rejected without touching the supplied accounts. -/
theorem c9_witness :
    process_instruction 1 [⟨10, 1, 0, .record ⟨0.9, 0⟩⟩] [0] [3] 0 50 =
      (some .invalidInstructionData, [⟨10, 1, 0, .record ⟨0.9, 0⟩⟩]) :=
  c9_malformed_payload 1 [⟨10, 1, 0, .record ⟨0.9, 0⟩⟩] [0] [3] 0 50 (by decide)

/-- Claim C10 (confirmed): when the same module-owned slot is supplied in both
positions and reporter = message_sender, a successful self-report leaves the
stored trust score equal to its original value — the reporter's record, score
untouched, is serialized into the shared slot after the sender's record — and
only the timestamp changes. -/
theorem c10_self_report_overwrite (pid : Nat) (store : Store) (i : Nat) (rest : List Nat)
    (key : Nat) (is_true : Bool) (clock : ℤ) (acc : Account) (st : CarTrustState)
    (ha : store[i]? = some acc) (hk : acc.key = key) (ho : acc.owner = pid)
    (hd : acc.data = .record st) :
    ∃ store2,
      report_message_outcome pid store (i :: i :: rest) key key is_true clock =
        (none, store2) ∧
      store2[i]? = some { acc with data := .record ⟨st.trust_score, clock⟩ } :=
  ⟨_, report_success_alias pid store i rest key is_true clock acc st ha hk ho hd,
    List.getElem?_set_self (isSome_of_getElem?_eq_some ha)⟩

/-- Claim C10, witness: a self-report on a record with score 0.3 keeps 0.3 and
advances only the timestamp. -/
theorem c10_witness :
    ∃ store2,
      report_message_outcome 1 [⟨7, 1, 0, .record ⟨0.3, 2⟩⟩] (0 :: 0 :: []) 7 7 true 8 =
        (none, store2) ∧
      store2[0]? = some ⟨7, 1, 0, .record ⟨0.3, 8⟩⟩ :=
  c10_self_report_overwrite 1 [⟨7, 1, 0, .record ⟨0.3, 2⟩⟩] 0 [] 7 true 8
    ⟨7, 1, 0, .record ⟨0.3, 2⟩⟩ ⟨0.3, 2⟩ rfl rfl rfl rfl

/-! ### Claim C2: instruction wire format -/

/-- The decoder described by the claim's words, for comparison: a leading 4-byte
little-endian tag selects the variant (0 = InitializeCar,
1 = ReportMessageOutcome, 2 = UpdateTrustScores), followed by that variant's
fields in declaration order as fixed-width little-endian bytes with no padding. -/
def specDecode4 : List Nat → Option TrustInstruction
  | t0 :: t1 :: t2 :: t3 :: rest =>
    match leValue [t0, t1, t2, t3] with
    | 0 => if rest.length = 8 then some (.initCar (leValue rest)) else none
    | 1 =>
      if rest.length = 65 then
        match rest.drop 64 with
        | [b] =>
          if b = 0 ∨ b = 1 then
            some (.reportMessageOutcome (leValue (rest.take 32))
              (leValue ((rest.drop 32).take 32)) (b == 1))
          else none
        | _ => none
      else none
    | 2 => if rest = [] then some .updateTrustScores else none
    | _ => none
  | _ => none

/-- Claim C2, counterexample: the 4-byte-tag format of the claim decodes the
payload [2, 0, 0, 0] to UpdateTrustScores, but the program (borsh: a single
tag byte, full consumption) rejects it — and conversely accepts the 1-byte
payload [2] that the claim's format deems truncated. -/
theorem c2_counterexample :
    specDecode4 [2, 0, 0, 0] = some .updateTrustScores ∧
    decodeInstruction [2, 0, 0, 0] = none ∧
    decodeInstruction [2] = some .updateTrustScores ∧
    specDecode4 [2] = none := by
  refine ⟨?_, by decide, by decide, by decide⟩
  decide

/-- Claim C2 as amended: decoding follows the borsh layout — a leading single
tag byte selecting the variant (0 = InitializeCar, 1 = ReportMessageOutcome,
2 = UpdateTrustScores), followed by that variant's fields in declaration order
as fixed-width little-endian bytes with no padding and nothing after them,
where the f64 field must not be a NaN bit pattern and the bool byte must be
0 or 1. -/
theorem c2_wire_format (bs : List Nat) (i : TrustInstruction) :
    decodeInstruction bs = some i ↔
      ((∃ f, bs = 0 :: f ∧ f.length = 8 ∧ isNanBits (leValue f) = false ∧
          i = .initCar (leValue f)) ∨
       (∃ r s b, bs = 1 :: (r ++ (s ++ [b])) ∧ r.length = 32 ∧ s.length = 32 ∧
          (b = 0 ∨ b = 1) ∧ i = .reportMessageOutcome (leValue r) (leValue s) (b == 1)) ∨
       (bs = [2] ∧ i = .updateTrustScores)) := by
  constructor
  · intro h
    match bs with
    | 0 :: rest =>
      left
      simp only [decodeInstruction] at h
      by_cases hl : rest.length = 8
      · rw [if_pos hl] at h
        by_cases hn : isNanBits (leValue rest)
        · rw [if_pos hn] at h; exact absurd h (by simp)
        · rw [if_neg hn] at h
          exact ⟨rest, rfl, hl, Bool.eq_false_iff.mpr hn,
            (Option.some.injEq .. ▸ h.symm ▸ rfl)⟩
      · rw [if_neg hl] at h; exact absurd h (by simp)
    | 1 :: rest =>
      right; left
      simp only [decodeInstruction] at h
      by_cases hl : rest.length = 65
      · rw [if_pos hl] at h
        match hdrop : rest.drop 64 with
        | [] => rw [hdrop] at h; exact absurd h (by simp)
        | b :: c :: t => rw [hdrop] at h; exact absurd h (by simp)
        | [b] =>
          rw [hdrop] at h
          have hsplit : rest = rest.take 32 ++ ((rest.drop 32).take 32 ++ [b]) := by
            conv_lhs => rw [← List.take_append_drop 32 rest]
            congr 1
            conv_lhs => rw [← List.take_append_drop 32 (rest.drop 32)]
            rw [List.drop_drop, hdrop]
          have hrl : (rest.take 32).length = 32 := by
            rw [List.length_take, hl]; omega
          have hsl : ((rest.drop 32).take 32).length = 32 := by
            rw [List.length_take, List.length_drop, hl]; omega
          simp only [] at h
          by_cases hb0 : b = 0
          · rw [if_pos hb0] at h
            refine ⟨rest.take 32, (rest.drop 32).take 32, b, by rw [← hsplit],
              hrl, hsl, Or.inl hb0, ?_⟩
            subst hb0
            exact (Option.some.injEq .. ▸ h.symm ▸ rfl)
          · rw [if_neg hb0] at h
            by_cases hb1 : b = 1
            · rw [if_pos hb1] at h
              refine ⟨rest.take 32, (rest.drop 32).take 32, b, by rw [← hsplit],
                hrl, hsl, Or.inr hb1, ?_⟩
              subst hb1
              exact (Option.some.injEq .. ▸ h.symm ▸ rfl)
            · rw [if_neg hb1] at h; exact absurd h (by simp)
      · rw [if_neg hl] at h; exact absurd h (by simp)
    | [2] =>
      right; right
      simp only [decodeInstruction] at h
      exact ⟨rfl, (Option.some.injEq .. ▸ h.symm ▸ rfl)⟩
    | [] => exact absurd h (by simp [decodeInstruction])
    | 2 :: c :: t => exact absurd h (by simp [decodeInstruction])
    | (n + 3) :: rest => exact absurd h (by simp [decodeInstruction])
  · intro h
    rcases h with ⟨f, hbs, hl, hn, hi⟩ | ⟨r, s, b, hbs, hrl, hsl, hb, hi⟩ | ⟨hbs, hi⟩
    · subst hbs; subst hi
      simp only [decodeInstruction, if_pos hl, hn, Bool.false_eq_true, if_false, ite_false]
    · subst hbs; subst hi
      have hlen : (r ++ (s ++ [b])).length = 65 := by
        simp [hrl, hsl]
      have htake : (r ++ (s ++ [b])).take 32 = r := List.take_left' hrl
      have hdrop32 : (r ++ (s ++ [b])).drop 32 = s ++ [b] := List.drop_left' hrl
      have hdrop64 : (r ++ (s ++ [b])).drop 64 = [b] := by
        have h64 : (64 : ℕ) = 32 + 32 := by norm_num
        rw [h64, ← List.drop_drop, hdrop32, List.drop_left' hsl]
      have htake32 : ((r ++ (s ++ [b])).drop 32).take 32 = s := by
        rw [hdrop32, List.take_left' hsl]
      rcases hb with hb | hb
      · subst hb
        simp [decodeInstruction, if_pos hlen, hdrop64, htake, htake32, hrl, hsl]
      · subst hb
        simp [decodeInstruction, if_pos hlen, hdrop64, htake, htake32, hrl, hsl]
    · subst hbs; subst hi; rfl

/-! ### Association-list lemmas for the batch recalculation -/

theorem lookupA_insertA_self {α : Type} (k : Nat) (v : α) (l : List (Nat × α)) :
    lookupA k (insertA k v l) = some v := by
  induction l with
  | nil => simp [insertA, lookupA]
  | cons p t ih =>
    by_cases h : p.1 = k
    · simp [insertA, h, lookupA]
    · simp [insertA, h, lookupA, ih]

theorem lookupA_insertA_ne {α : Type} (j k : Nat) (v : α) (l : List (Nat × α)) (h : j ≠ k) :
    lookupA j (insertA k v l) = lookupA j l := by
  induction l with
  | nil => simp [insertA, lookupA, Ne.symm h]
  | cons p t ih =>
    by_cases hp : p.1 = k
    · simp [insertA, hp, lookupA, Ne.symm h]
    · simp only [insertA, hp, if_false, ite_false, lookupA]
      by_cases hj : p.1 = j <;> simp [hj, ih]

theorem mem_insertA {α : Type} (k : Nat) (v : α) (l : List (Nat × α)) (p : Nat × α)
    (h : p ∈ insertA k v l) : p = (k, v) ∨ p ∈ l := by
  induction l with
  | nil => simpa [insertA] using h
  | cons q t ih =>
    by_cases hq : q.1 = k
    · simp only [insertA, hq, if_true, ite_true, List.mem_cons] at h
      rcases h with h | h
      · exact Or.inl h
      · exact Or.inr (List.mem_cons_of_mem q h)
    · simp only [insertA, hq, if_false, ite_false, List.mem_cons] at h
      rcases h with h | h
      · exact Or.inr (h ▸ List.mem_cons_self q t)
      · rcases ih h with h1 | h1
        · exact Or.inl h1
        · exact Or.inr (List.mem_cons_of_mem q h1)

theorem keys_insertA_of_mem {α : Type} (k : Nat) (v : α) (l : List (Nat × α))
    (h : k ∈ l.map Prod.fst) : (insertA k v l).map Prod.fst = l.map Prod.fst := by
  induction l with
  | nil => simp at h
  | cons q t ih =>
    by_cases hq : q.1 = k
    · simp [insertA, hq]
    · simp only [List.map_cons, List.mem_cons] at h
      rcases h with h | h
      · exact absurd h.symm hq
      · simp [insertA, hq, ih h]

theorem keys_insertA_of_not_mem {α : Type} (k : Nat) (v : α) (l : List (Nat × α))
    (h : k ∉ l.map Prod.fst) : (insertA k v l).map Prod.fst = l.map Prod.fst ++ [k] := by
  induction l with
  | nil => simp [insertA]
  | cons q t ih =>
    simp only [List.map_cons, List.mem_cons] at h
    push_neg at h
    simp [insertA, Ne.symm h.1, ih h.2]

theorem nodup_keys_insertA {α : Type} (k : Nat) (v : α) (l : List (Nat × α))
    (h : (l.map Prod.fst).Nodup) : ((insertA k v l).map Prod.fst).Nodup := by
  by_cases hm : k ∈ l.map Prod.fst
  · rw [keys_insertA_of_mem k v l hm]; exact h
  · rw [keys_insertA_of_not_mem k v l hm]
    simp [List.nodup_append, h, hm]

theorem lookupA_eq_none {α : Type} (k : Nat) (l : List (Nat × α))
    (h : k ∉ l.map Prod.fst) : lookupA k l = none := by
  induction l with
  | nil => rfl
  | cons q t ih =>
    simp only [List.map_cons, List.mem_cons] at h
    push_neg at h
    simp [lookupA, Ne.symm h.1, ih h.2]

theorem lookupA_isSome {α : Type} (k : Nat) (l : List (Nat × α))
    (h : k ∈ l.map Prod.fst) : ∃ v, lookupA k l = some v := by
  induction l with
  | nil => simp at h
  | cons q t ih =>
    by_cases hq : q.1 = k
    · exact ⟨q.2, by simp [lookupA, hq]⟩
    · simp only [List.map_cons, List.mem_cons] at h
      rcases h with h | h
      · exact absurd h.symm hq
      · rcases ih h with ⟨v, hv⟩
        exact ⟨v, by simp [lookupA, hq, hv]⟩

theorem lookupA_mem {α : Type} (k : Nat) (v : α) (l : List (Nat × α))
    (h : lookupA k l = some v) : (k, v) ∈ l := by
  induction l with
  | nil => simp [lookupA] at h
  | cons q t ih =>
    by_cases hq : q.1 = k
    · simp only [lookupA, hq, if_true, ite_true, Option.some.injEq] at h
      subst h
      exact (show (q.1, q.2) = q by rfl) ▸ hq ▸ List.mem_cons_self q t
    · simp only [lookupA, hq, if_false, ite_false] at h
      exact List.mem_cons_of_mem q (ih h)

theorem keys_updateA {α : Type} (k : Nat) (v : α) (l : List (Nat × α)) :
    (updateA k v l).map Prod.fst = l.map Prod.fst := by
  induction l with
  | nil => rfl
  | cons q t ih =>
    by_cases hq : q.1 = k
    · simp [updateA, hq]
    · simp [updateA, hq, ih]

theorem updateA_eq_map {α : Type} (k : Nat) (v : α) (l : List (Nat × α))
    (h : (l.map Prod.fst).Nodup) :
    updateA k v l = l.map (fun p => if p.1 = k then (k, v) else p) := by
  induction l with
  | nil => rfl
  | cons q t ih =>
    simp only [List.map_cons, List.nodup_cons] at h
    by_cases hq : q.1 = k
    · have ht : ∀ p ∈ t, (if p.1 = k then (k, v) else p) = p := by
        intro p hp
        have : p.1 ≠ k := fun hh => h.1 (hq ▸ hh ▸ List.mem_map_of_mem Prod.fst hp)
        simp [this]
      simp [updateA, hq, List.map_congr_left ht]
    · simp [updateA, hq, ih h.2]

/-! ### The per-iteration computation equals the specification formula -/

theorem nodup_keys_foldl_insertA {α β : Type} (g : Nat × α → β) (states : List (Nat × α)) :
    ∀ ns : List (Nat × β), (ns.map Prod.fst).Nodup →
      ((states.foldl (fun acc p => insertA p.1 (g p) acc) ns).map Prod.fst).Nodup := by
  induction states with
  | nil => exact fun ns h => h
  | cons p t ih =>
    intro ns h
    exact ih (insertA p.1 (g p) ns) (nodup_keys_insertA p.1 (g p) ns h)

theorem lookupA_foldl_insertA_not_mem {α β : Type} (g : Nat × α → β) (k : Nat)
    (states : List (Nat × α)) (h : k ∉ states.map Prod.fst) :
    ∀ ns : List (Nat × β),
      lookupA k (states.foldl (fun acc p => insertA p.1 (g p) acc) ns) = lookupA k ns := by
  induction states with
  | nil => exact fun ns => rfl
  | cons p t ih =>
    intro ns
    simp only [List.map_cons, List.mem_cons] at h
    push_neg at h
    rw [List.foldl_cons, ih h.2, lookupA_insertA_ne k p.1 (g p) ns h.1]

theorem lookupA_foldl_insertA {α β : Type} (g : Nat × α → β) (states : List (Nat × α))
    (hnd : (states.map Prod.fst).Nodup) (p : Nat × α) (hp : p ∈ states) :
    ∀ ns : List (Nat × β),
      lookupA p.1 (states.foldl (fun acc q => insertA q.1 (g q) acc) ns) = some (g p) := by
  induction states with
  | nil => simp at hp
  | cons q t ih =>
    intro ns
    simp only [List.map_cons, List.nodup_cons] at hnd
    rcases List.mem_cons.mp hp with hq | hq
    · subst hq
      rw [List.foldl_cons, lookupA_foldl_insertA_not_mem g p.1 t hnd.1,
        lookupA_insertA_self p.1 (g p) ns]
    · exact ih hnd.2 hq (insertA q.1 (g q) ns)

theorem apply_new_scores_eq_map (clock : ℤ) (ns : List (Nat × ℚ)) :
    ∀ states : List (Nat × CarTrustState), (ns.map Prod.fst).Nodup →
      (states.map Prod.fst).Nodup →
      apply_new_scores clock ns states =
        states.map (fun p =>
          match lookupA p.1 ns with
          | some q => (p.1, (⟨q, clock⟩ : CarTrustState))
          | none => p) := by
  induction ns with
  | nil =>
    intro states _ _
    simp [apply_new_scores, lookupA]
  | cons q t ih =>
    intro states hns hst
    simp only [List.map_cons, List.nodup_cons] at hns
    have hupd : updateA q.1 (⟨q.2, clock⟩ : CarTrustState) states =
        states.map (fun p => if p.1 = q.1 then (q.1, (⟨q.2, clock⟩ : CarTrustState)) else p) :=
      updateA_eq_map q.1 ⟨q.2, clock⟩ states hst
    have hkeys : ((states.map (fun p =>
        if p.1 = q.1 then (q.1, (⟨q.2, clock⟩ : CarTrustState)) else p)).map Prod.fst).Nodup := by
      have : (states.map (fun p =>
          if p.1 = q.1 then (q.1, (⟨q.2, clock⟩ : CarTrustState)) else p)).map Prod.fst =
          states.map Prod.fst := by
        rw [List.map_map]
        refine List.map_congr_left ?_
        intro p _
        by_cases hp : p.1 = q.1 <;> simp [hp]
      rw [this]; exact hst
    have step : apply_new_scores clock (q :: t) states =
        apply_new_scores clock t (updateA q.1 ⟨q.2, clock⟩ states) := rfl
    rw [step, hupd, ih _ hns.2 hkeys, List.map_map]
    refine List.map_congr_left ?_
    intro p hp
    by_cases hpq : p.1 = q.1
    · have hnone : lookupA q.1 t = none := lookupA_eq_none q.1 t hns.1
      simp [Function.comp_apply, hpq, lookupA, hnone]
    · simp only [Function.comp_apply, hpq, if_false, ite_false, lookupA]
      rw [if_neg (fun hh : q.1 = p.1 => hpq hh.symm)]

/-- The claim's agreement term: 1 if the subject's own score exceeds 0.5, else 0. -/
def spec_agreement (q : ℚ) : ℚ := if q > 0.5 then 1 else 0

/-- The claim's per-car score update: sums over every other car of
`trust_score(v) * agreement(c)` and of `trust_score(v)`, normalized with the 0.5
default on a non-positive denominator, then
`alpha * normalized + (1 - alpha) * 0.6` clamped to [0, 1]. -/
def spec_new_score (states : List (Nat × CarTrustState)) (c : Nat) (qc : ℚ) : ℚ :=
  let voters := states.filter (fun p => p.1 ≠ c)
  let weighted_sum := (voters.map (fun p => p.2.trust_score * spec_agreement qc)).sum
  let total := (voters.map (fun p => p.2.trust_score)).sum
  let normalized := if total > 0 then weighted_sum / total else 0.5
  clampScore (0.85 * normalized + (1 - 0.85) * 0.6)

/-- One claim-level iteration: every car's new score is computed from the scores
entering the iteration and all are applied together, with the timestamp set to
the clock. -/
def spec_round (clock : ℤ) (states : List (Nat × CarTrustState)) :
    List (Nat × CarTrustState) :=
  states.map (fun p => (p.1, ⟨spec_new_score states p.1 p.2.trust_score, clock⟩))

theorem foldl_pair_sum (A : ℚ) (c : Nat) (states : List (Nat × CarTrustState)) :
    ∀ a b : ℚ,
      states.foldl
        (fun acc vp =>
          if vp.1 ≠ c then (acc.1 + vp.2.trust_score * A, acc.2 + vp.2.trust_score) else acc)
        (a, b) =
      (a + ((states.filter (fun p => p.1 ≠ c)).map (fun p => p.2.trust_score * A)).sum,
       b + ((states.filter (fun p => p.1 ≠ c)).map (fun p => p.2.trust_score)).sum) := by
  induction states with
  | nil => intro a b; simp
  | cons p t ih =>
    intro a b
    by_cases hp : p.1 ≠ c
    · rw [List.foldl_cons, if_pos hp, ih, List.filter_cons_of_pos (by simpa using hp)]
      simp only [List.map_cons, List.sum_cons]
      rw [Prod.mk.injEq]
      constructor <;> ring
    · rw [List.foldl_cons, if_neg hp, ih, List.filter_cons_of_neg (by simpa using hp)]

theorem voter_sums_eq (infos : List (Nat × Nat)) (c : Nat) (ct : CarTrustState)
    (states : List (Nat × CarTrustState)) (j : Nat) (h : lookupA c infos = some j) :
    voter_sums infos c ct states =
      (((states.filter (fun p => p.1 ≠ c)).map
          (fun p => p.2.trust_score * spec_agreement ct.trust_score)).sum,
       ((states.filter (fun p => p.1 ≠ c)).map (fun p => p.2.trust_score)).sum) := by
  unfold voter_sums
  rw [show (fun (acc : ℚ × ℚ) (vp : Nat × CarTrustState) =>
      if vp.1 ≠ c then
        (acc.1 + vp.2.trust_score *
            (match lookupA c infos with
             | some _ => if ct.trust_score > 0.5 then 1 else 0
             | none => 0.5),
         acc.2 + vp.2.trust_score)
      else acc) =
    (fun (acc : ℚ × ℚ) (vp : Nat × CarTrustState) =>
      if vp.1 ≠ c then
        (acc.1 + vp.2.trust_score * spec_agreement ct.trust_score, acc.2 + vp.2.trust_score)
      else acc) by rw [h]; rfl]
  rw [foldl_pair_sum (spec_agreement ct.trust_score) c states 0 0]
  simp

theorem new_score_of_eq (infos : List (Nat × Nat)) (states : List (Nat × CarTrustState))
    (c : Nat) (ct : CarTrustState) (j : Nat) (h : lookupA c infos = some j) :
    new_score_of infos states c ct = spec_new_score states c ct.trust_score := by
  unfold new_score_of spec_new_score
  rw [voter_sums_eq infos c ct states j h]
  rfl

theorem keys_spec_round (clock : ℤ) (states : List (Nat × CarTrustState)) :
    (spec_round clock states).map Prod.fst = states.map Prod.fst := by
  unfold spec_round
  rw [List.map_map]
  rfl

theorem nodup_keys_spec_round (clock : ℤ) (states : List (Nat × CarTrustState))
    (h : (states.map Prod.fst).Nodup) : ((spec_round clock states).map Prod.fst).Nodup := by
  rw [keys_spec_round]; exact h

theorem compute_apply_round (infos : List (Nat × Nat)) (clock : ℤ)
    (states : List (Nat × CarTrustState)) (ns : List (Nat × ℚ))
    (hsub : ∀ k ∈ states.map Prod.fst, k ∈ infos.map Prod.fst)
    (hstd : (states.map Prod.fst).Nodup) (hnsd : (ns.map Prod.fst).Nodup) :
    apply_new_scores clock (compute_new_scores infos states ns) states =
      spec_round clock states := by
  have hnd1 : ((compute_new_scores infos states ns).map Prod.fst).Nodup :=
    nodup_keys_foldl_insertA (fun p => new_score_of infos states p.1 p.2) states ns hnsd
  rw [show compute_new_scores infos states ns =
      states.foldl (fun acc q => insertA q.1
        ((fun p => new_score_of infos states p.1 p.2) q) acc) ns from rfl] at hnd1 ⊢
  rw [apply_new_scores_eq_map clock _ states hnd1 hstd]
  unfold spec_round
  refine List.map_congr_left ?_
  intro p hp
  rw [lookupA_foldl_insertA (fun p => new_score_of infos states p.1 p.2) states hstd p hp ns]
  rcases lookupA_isSome p.1 infos (hsub p.1 (List.mem_map_of_mem Prod.fst hp)) with ⟨j, hj⟩
  rw [new_score_of_eq infos states p.1 p.2 j hj]

theorem trust_rounds_eq_spec (infos : List (Nat × Nat)) (clock : ℤ) :
    ∀ (n : Nat) (states : List (Nat × CarTrustState)) (ns : List (Nat × ℚ)),
      (∀ k ∈ states.map Prod.fst, k ∈ infos.map Prod.fst) →
      (states.map Prod.fst).Nodup → (ns.map Prod.fst).Nodup →
      trust_rounds infos clock n states ns = (spec_round clock)^[n] states := by
  intro n
  induction n with
  | zero => intro states ns _ _ _; rfl
  | succ n ih =>
    intro states ns hsub hstd hnsd
    have hstep := compute_apply_round infos clock states ns hsub hstd hnsd
    have hnd1 : ((compute_new_scores infos states ns).map Prod.fst).Nodup :=
      nodup_keys_foldl_insertA (fun p => new_score_of infos states p.1 p.2) states ns hnsd
    have hsub1 : ∀ k ∈ (spec_round clock states).map Prod.fst, k ∈ infos.map Prod.fst := by
      rw [keys_spec_round]; exact hsub
    have hstd1 : ((spec_round clock states).map Prod.fst).Nodup :=
      nodup_keys_spec_round clock states hstd
    rw [show trust_rounds infos clock (n + 1) states ns =
        trust_rounds infos clock n
          (apply_new_scores clock (compute_new_scores infos states ns) states)
          (compute_new_scores infos states ns) from rfl,
      hstep, ih (spec_round clock states) (compute_new_scores infos states ns) hsub1 hstd1 hnd1,
      Function.iterate_succ_apply]

/-! ### Collection-phase invariants and the write-back loop -/

theorem collect_keys (pid : Nat) (store : Store) :
    ∀ (idxs : List Nat) (s0 : List (Nat × CarTrustState)) (i0 : List (Nat × Nat))
      (s : List (Nat × CarTrustState)) (i : List (Nat × Nat)),
      collect_states pid store idxs s0 i0 = some (s, i) →
      s0.map Prod.fst = i0.map Prod.fst → s.map Prod.fst = i.map Prod.fst := by
  intro idxs
  induction idxs with
  | nil =>
    intro s0 i0 s i hcol hk
    simp only [collect_states, Option.some.injEq, Prod.mk.injEq] at hcol
    rw [← hcol.1, ← hcol.2]; exact hk
  | cons j rest ih =>
    intro s0 i0 s i hcol hk
    rcases hst : store[j]? with _ | a
    · rw [show collect_states pid store (j :: rest) s0 i0 =
        collect_states pid store rest s0 i0 by simp only [collect_states, hst]] at hcol
      exact ih _ _ _ _ hcol hk
    · by_cases hcond : a.owner = pid ∧ 0 < dataLen a.data
      · rcases hdec : decodeData a.data with _ | st
        · rw [show collect_states pid store (j :: rest) s0 i0 = none by
            simp only [collect_states, hst, if_pos hcond, hdec]] at hcol
          exact Option.noConfusion hcol
        · rw [show collect_states pid store (j :: rest) s0 i0 =
            collect_states pid store rest (insertA a.key st s0) (insertA a.key j i0) by
            simp only [collect_states, hst, if_pos hcond, hdec]] at hcol
          refine ih _ _ _ _ hcol ?_
          by_cases hm : a.key ∈ s0.map Prod.fst
          · rw [keys_insertA_of_mem _ _ _ hm, keys_insertA_of_mem _ _ _ (hk ▸ hm), hk]
          · rw [keys_insertA_of_not_mem _ _ _ hm, keys_insertA_of_not_mem _ _ _ (hk ▸ hm), hk]
      · rw [show collect_states pid store (j :: rest) s0 i0 =
          collect_states pid store rest s0 i0 by
          simp only [collect_states, hst, if_neg hcond]] at hcol
        exact ih _ _ _ _ hcol hk

theorem collect_nodup (pid : Nat) (store : Store) :
    ∀ (idxs : List Nat) (s0 : List (Nat × CarTrustState)) (i0 : List (Nat × Nat))
      (s : List (Nat × CarTrustState)) (i : List (Nat × Nat)),
      collect_states pid store idxs s0 i0 = some (s, i) →
      (s0.map Prod.fst).Nodup → (s.map Prod.fst).Nodup := by
  intro idxs
  induction idxs with
  | nil =>
    intro s0 i0 s i hcol hk
    simp only [collect_states, Option.some.injEq, Prod.mk.injEq] at hcol
    rw [← hcol.1]; exact hk
  | cons j rest ih =>
    intro s0 i0 s i hcol hk
    rcases hst : store[j]? with _ | a
    · rw [show collect_states pid store (j :: rest) s0 i0 =
        collect_states pid store rest s0 i0 by simp only [collect_states, hst]] at hcol
      exact ih _ _ _ _ hcol hk
    · by_cases hcond : a.owner = pid ∧ 0 < dataLen a.data
      · rcases hdec : decodeData a.data with _ | st
        · rw [show collect_states pid store (j :: rest) s0 i0 = none by
            simp only [collect_states, hst, if_pos hcond, hdec]] at hcol
          exact Option.noConfusion hcol
        · rw [show collect_states pid store (j :: rest) s0 i0 =
            collect_states pid store rest (insertA a.key st s0) (insertA a.key j i0) by
            simp only [collect_states, hst, if_pos hcond, hdec]] at hcol
          exact ih _ _ _ _ hcol (nodup_keys_insertA _ _ _ hk)
      · rw [show collect_states pid store (j :: rest) s0 i0 =
          collect_states pid store rest s0 i0 by
          simp only [collect_states, hst, if_neg hcond]] at hcol
        exact ih _ _ _ _ hcol hk

/-- Every collected handle points at a slot of the original store whose key is
the map key and whose data is a well-formed record. -/
def infosOk (store : Store) (infos : List (Nat × Nat)) : Prop :=
  ∀ p ∈ infos, ∃ a t, store[p.2]? = some a ∧ a.key = p.1 ∧ a.data = AccountData.record t

theorem decodeData_inv (d : AccountData) (t : CarTrustState) (h : decodeData d = some t) :
    d = .record t := by
  cases d with
  | raw n => exact Option.noConfusion h
  | record s =>
    simp only [decodeData, Option.some.injEq] at h
    rw [h]

theorem collect_infosOk (pid : Nat) (store : Store) :
    ∀ (idxs : List Nat) (s0 : List (Nat × CarTrustState)) (i0 : List (Nat × Nat))
      (s : List (Nat × CarTrustState)) (i : List (Nat × Nat)),
      collect_states pid store idxs s0 i0 = some (s, i) →
      infosOk store i0 → infosOk store i := by
  intro idxs
  induction idxs with
  | nil =>
    intro s0 i0 s i hcol hk
    simp only [collect_states, Option.some.injEq, Prod.mk.injEq] at hcol
    rw [← hcol.2]; exact hk
  | cons j rest ih =>
    intro s0 i0 s i hcol hk
    rcases hst : store[j]? with _ | a
    · rw [show collect_states pid store (j :: rest) s0 i0 =
        collect_states pid store rest s0 i0 by simp only [collect_states, hst]] at hcol
      exact ih _ _ _ _ hcol hk
    · by_cases hcond : a.owner = pid ∧ 0 < dataLen a.data
      · rcases hdec : decodeData a.data with _ | st
        · rw [show collect_states pid store (j :: rest) s0 i0 = none by
            simp only [collect_states, hst, if_pos hcond, hdec]] at hcol
          exact Option.noConfusion hcol
        · rw [show collect_states pid store (j :: rest) s0 i0 =
            collect_states pid store rest (insertA a.key st s0) (insertA a.key j i0) by
            simp only [collect_states, hst, if_pos hcond, hdec]] at hcol
          refine ih _ _ _ _ hcol ?_
          intro p hp
          rcases mem_insertA a.key j i0 p hp with hnew | hold
          · subst hnew
            exact ⟨a, st, hst, rfl, decodeData_inv a.data st hdec⟩
          · exact hk p hold
      · rw [show collect_states pid store (j :: rest) s0 i0 =
          collect_states pid store rest s0 i0 by
          simp only [collect_states, hst, if_neg hcond]] at hcol
        exact ih _ _ _ _ hcol hk

theorem infosOk_set_record (store : Store) (infos : List (Nat × Nat)) (i : Nat)
    (a : Account) (s : CarTrustState) (h : infosOk store infos)
    (ha : store[i]? = some a) :
    infosOk (store.set i { a with data := .record s }) infos := by
  intro p hp
  rcases h p hp with ⟨a1, t1, hget, hkey, hdata⟩
  by_cases hpi : p.2 = i
  · subst hpi
    rw [hget] at ha
    have haa : a1 = a := Option.some.injEq .. ▸ ha.symm ▸ rfl
    exact ⟨{ a with data := .record s }, s,
      List.getElem?_set_self (isSome_of_getElem?_eq_some hget), by rw [← haa]; exact hkey, rfl⟩
  · exact ⟨a1, t1, by rw [List.getElem?_set_ne (fun hh => hpi hh.symm)]; exact hget, hkey, hdata⟩

theorem write_back_result (infos : List (Nat × Nat)) :
    ∀ (fs : List (Nat × CarTrustState)) (store : Store), infosOk store infos →
      (write_back infos fs store).1 = none ∧ infosOk (write_back infos fs store).2 infos := by
  intro fs
  induction fs with
  | nil => intro store h; exact ⟨rfl, h⟩
  | cons p t ih =>
    intro store h
    rcases hlk : lookupA p.1 infos with _ | i
    · rw [show write_back infos (p :: t) store = write_back infos t store by
        simp only [write_back, hlk]]
      exact ih store h
    · rcases h (p.1, i) (lookupA_mem p.1 i infos hlk) with ⟨a, t1, hget, hkey, hdata⟩
      have hw := writeRecord_of_record store i a t1 p.2 hget hdata
      rw [show write_back infos (p :: t) store =
        write_back infos t (store.set i { a with data := .record p.2 }) by
        simp only [write_back, hlk, hw]]
      exact ih _ (infosOk_set_record store infos i a p.2 h hget)

theorem write_back_frame (infos : List (Nat × Nat)) :
    ∀ (fs : List (Nat × CarTrustState)) (store : Store) (j : Nat), infosOk store infos →
      (∀ p ∈ fs, ∀ i, lookupA p.1 infos = some i → i ≠ j) →
      (write_back infos fs store).2[j]? = store[j]? := by
  intro fs
  induction fs with
  | nil => intro store j _ _; rfl
  | cons p t ih =>
    intro store j h hne
    rcases hlk : lookupA p.1 infos with _ | i
    · rw [show write_back infos (p :: t) store = write_back infos t store by
        simp only [write_back, hlk]]
      exact ih store j h (fun q hq => hne q (List.mem_cons_of_mem p hq))
    · rcases h (p.1, i) (lookupA_mem p.1 i infos hlk) with ⟨a, t1, hget, hkey, hdata⟩
      have hw := writeRecord_of_record store i a t1 p.2 hget hdata
      rw [show write_back infos (p :: t) store =
        write_back infos t (store.set i { a with data := .record p.2 }) by
        simp only [write_back, hlk, hw]]
      rw [ih _ j (infosOk_set_record store infos i a p.2 h hget)
        (fun q hq => hne q (List.mem_cons_of_mem p hq)),
        List.getElem?_set_ne (hne p (List.mem_cons_self p t) i hlk)]

theorem write_back_content (infos : List (Nat × Nat)) :
    ∀ (fs : List (Nat × CarTrustState)) (store : Store), infosOk store infos →
      (fs.map Prod.fst).Nodup →
      ∀ p ∈ fs, ∀ i, lookupA p.1 infos = some i →
      ∃ a, (write_back infos fs store).2[i]? = some a ∧
        a.key = p.1 ∧ a.data = .record p.2 := by
  intro fs
  induction fs with
  | nil => intro store _ _ p hp; simp at hp
  | cons q t ih =>
    intro store h hnd p hp i hlk
    simp only [List.map_cons, List.nodup_cons] at hnd
    rcases List.mem_cons.mp hp with hq | hq
    · subst hq
      rcases hlkq : lookupA p.1 infos with _ | i0
      · rw [hlkq] at hlk; exact Option.noConfusion hlk
      · have hii : i = i0 := by rw [hlkq] at hlk; exact (Option.some.injEq .. ▸ hlk.symm ▸ rfl)
        subst hii
        rcases h (p.1, i) (lookupA_mem p.1 i infos hlkq) with ⟨a, t1, hget, hkey, hdata⟩
        have hw := writeRecord_of_record store i a t1 p.2 hget hdata
        rw [show write_back infos (p :: t) store =
          write_back infos t (store.set i { a with data := .record p.2 }) by
          simp only [write_back, hlkq, hw]]
        have hok1 := infosOk_set_record store infos i a p.2 h hget
        have hframe : (write_back infos t (store.set i { a with data := .record p.2 })).2[i]? =
            (store.set i { a with data := .record p.2 })[i]? := by
          refine write_back_frame infos t _ i hok1 ?_
          intro q1 hq1 i1 hlk1
          intro hii
          subst hii
          rcases h (q1.1, i1) (lookupA_mem q1.1 i1 infos hlk1) with ⟨a2, t2, hget2, hkey2, _⟩
          rw [hget] at hget2
          have : a2 = a := Option.some.injEq .. ▸ hget2.symm ▸ rfl
          subst this
          have hq1p : q1.1 = p.1 := by rw [← hkey2, hkey]
          exact hnd.1 (hq1p ▸ List.mem_map_of_mem Prod.fst hq1)
        rw [hframe, List.getElem?_set_self (isSome_of_getElem?_eq_some hget)]
        exact ⟨{ a with data := .record p.2 }, rfl, hkey, rfl⟩
    · rcases hlkq : lookupA q.1 infos with _ | i0
      · rw [show write_back infos (q :: t) store = write_back infos t store by
          simp only [write_back, hlkq]]
        exact ih store h hnd.2 p hq i hlk
      · rcases h (q.1, i0) (lookupA_mem q.1 i0 infos hlkq) with ⟨a, t1, hget, hkey, hdata⟩
        have hw := writeRecord_of_record store i0 a t1 q.2 hget hdata
        rw [show write_back infos (q :: t) store =
          write_back infos t (store.set i0 { a with data := .record q.2 }) by
          simp only [write_back, hlkq, hw]]
        exact ih _ (infosOk_set_record store infos i0 a q.2 h hget) hnd.2 p hq i hlk

theorem apply_new_scores_nil (clock : ℤ) (ns : List (Nat × ℚ)) :
    apply_new_scores clock ns [] = [] := by
  induction ns with
  | nil => rfl
  | cons q t ih => exact ih

theorem compute_new_scores_nil (infos : List (Nat × Nat)) (ns : List (Nat × ℚ)) :
    compute_new_scores infos [] ns = ns := rfl

theorem trust_rounds_nil (infos : List (Nat × Nat)) (clock : ℤ) :
    ∀ (n : Nat) (ns : List (Nat × ℚ)), trust_rounds infos clock n [] ns = [] := by
  intro n
  induction n with
  | zero => intro ns; rfl
  | succ n ih =>
    intro ns
    rw [show trust_rounds infos clock (n + 1) [] ns =
      trust_rounds infos clock n (apply_new_scores clock (compute_new_scores infos [] ns) [])
        (compute_new_scores infos [] ns) from rfl,
      apply_new_scores_nil]
    exact ih _

theorem keys_apply_new_scores (clock : ℤ) (ns : List (Nat × ℚ)) :
    ∀ states : List (Nat × CarTrustState),
      (apply_new_scores clock ns states).map Prod.fst = states.map Prod.fst := by
  induction ns with
  | nil => intro states; rfl
  | cons q t ih =>
    intro states
    rw [show apply_new_scores clock (q :: t) states =
      apply_new_scores clock t (updateA q.1 ⟨q.2, clock⟩ states) from rfl, ih, keys_updateA]

theorem keys_trust_rounds (infos : List (Nat × Nat)) (clock : ℤ) :
    ∀ (n : Nat) (states : List (Nat × CarTrustState)) (ns : List (Nat × ℚ)),
      (trust_rounds infos clock n states ns).map Prod.fst = states.map Prod.fst := by
  intro n
  induction n with
  | zero => intro states ns; rfl
  | succ n ih =>
    intro states ns
    rw [show trust_rounds infos clock (n + 1) states ns =
      trust_rounds infos clock n
        (apply_new_scores clock (compute_new_scores infos states ns) states)
        (compute_new_scores infos states ns) from rfl,
      ih, keys_apply_new_scores]

/-- Claim C1 (confirmed, vacuously on the failure side): once the collection
phase has succeeded, every record reaching the final serialization loop sits in
an exactly-16-byte well-formed slot, so no write can fail: the operation
succeeds — the "first failure encountered" is none — and every collected car's
slot receives its final record (so no car's write is ever skipped because of
another's failure). -/
theorem c1_batch_writeback (pid : Nat) (store : Store) (idxs : List Nat) (clock : ℤ)
    (states : List (Nat × CarTrustState)) (infos : List (Nat × Nat))
    (hcol : collect_states pid store idxs [] [] = some (states, infos)) :
    (update_trust_scores pid store idxs clock).1 = none ∧
    ∀ p ∈ trust_rounds infos clock 5 states [], ∀ i, lookupA p.1 infos = some i →
      ∃ a, (update_trust_scores pid store idxs clock).2[i]? = some a ∧
        a.key = p.1 ∧ a.data = .record p.2 := by
  have hok : infosOk store infos :=
    collect_infosOk pid store idxs [] [] states infos hcol (by intro p hp; simp at hp)
  by_cases hemp : states = []
  · subst hemp
    have hres : update_trust_scores pid store idxs clock = (none, store) := by
      simp [update_trust_scores, hcol]
    rw [hres]
    refine ⟨rfl, ?_⟩
    intro p hp
    rw [trust_rounds_nil infos clock 5 []] at hp
    simp at hp
  · have hupd : update_trust_scores pid store idxs clock =
        write_back infos (trust_rounds infos clock 5 states []) store := by
      simp only [update_trust_scores, hcol, if_neg hemp]
    have hnd : (states.map Prod.fst).Nodup :=
      collect_nodup pid store idxs [] [] states infos hcol (by simp)
    have hndr : ((trust_rounds infos clock 5 states []).map Prod.fst).Nodup := by
      rw [keys_trust_rounds]; exact hnd
    rw [hupd]
    exact ⟨(write_back_result infos _ store hok).1,
      fun p hp i hlk => write_back_content infos _ store hok hndr p hp i hlk⟩

/-- Claim C1, witness: two cars; the collection succeeds and the theorem applies. -/
theorem c1_witness :
    (update_trust_scores 1 [⟨10, 1, 0, .record ⟨0.9, 0⟩⟩, ⟨11, 1, 0, .record ⟨0.3, 0⟩⟩]
        [0, 1] 7).1 = none ∧
    ∀ p ∈ trust_rounds [(10, 0), (11, 1)] 7 5
        [(10, ⟨0.9, 0⟩), (11, ⟨0.3, 0⟩)] [], ∀ i, lookupA p.1 [(10, 0), (11, 1)] = some i →
      ∃ a, (update_trust_scores 1
          [⟨10, 1, 0, .record ⟨0.9, 0⟩⟩, ⟨11, 1, 0, .record ⟨0.3, 0⟩⟩] [0, 1] 7).2[i]? =
          some a ∧ a.key = p.1 ∧ a.data = .record p.2 :=
  c1_batch_writeback 1 [⟨10, 1, 0, .record ⟨0.9, 0⟩⟩, ⟨11, 1, 0, .record ⟨0.3, 0⟩⟩]
    [0, 1] 7 [(10, ⟨0.9, 0⟩), (11, ⟨0.3, 0⟩)] [(10, 0), (11, 1)] rfl

/-- Claim C5 (confirmed): with a non-empty collection, the whole operation is the
write-back of exactly 5 spec-level iterations: in each iteration every car's new
score is computed from the scores entering the iteration (one shared snapshot,
applied together afterwards, timestamps advanced to the clock) as
`clamp(0.85 * normalized + 0.15 * 0.6)` with
`normalized = weighted_sum / total` when `total > 0` else `0.5`, the sums
ranging over all other cars with `agreement(c) = 1` iff `trust_score(c) > 0.5`. -/
theorem c5_five_iterations (pid : Nat) (store : Store) (idxs : List Nat) (clock : ℤ)
    (states : List (Nat × CarTrustState)) (infos : List (Nat × Nat))
    (hcol : collect_states pid store idxs [] [] = some (states, infos))
    (hne : states ≠ []) :
    update_trust_scores pid store idxs clock =
      write_back infos ((spec_round clock)^[5] states) store := by
  have hkeys : states.map Prod.fst = infos.map Prod.fst :=
    collect_keys pid store idxs [] [] states infos hcol rfl
  have hnd : (states.map Prod.fst).Nodup :=
    collect_nodup pid store idxs [] [] states infos hcol (by simp)
  have hsub : ∀ k ∈ states.map Prod.fst, k ∈ infos.map Prod.fst := fun k hk => hkeys ▸ hk
  rw [show update_trust_scores pid store idxs clock =
      write_back infos (trust_rounds infos clock 5 states []) store by
      simp only [update_trust_scores, hcol, if_neg hne],
    trust_rounds_eq_spec infos clock 5 states [] hsub hnd (by simp)]

/-- Claim C5, witness: the same two-car population. -/
theorem c5_witness :
    update_trust_scores 1 [⟨10, 1, 0, .record ⟨0.9, 0⟩⟩, ⟨11, 1, 0, .record ⟨0.3, 0⟩⟩]
        [0, 1] 7 =
      write_back [(10, 0), (11, 1)]
        ((spec_round 7)^[5] [(10, ⟨0.9, 0⟩), (11, ⟨0.3, 0⟩)])
        [⟨10, 1, 0, .record ⟨0.9, 0⟩⟩, ⟨11, 1, 0, .record ⟨0.3, 0⟩⟩] :=
  c5_five_iterations 1 [⟨10, 1, 0, .record ⟨0.9, 0⟩⟩, ⟨11, 1, 0, .record ⟨0.3, 0⟩⟩]
    [0, 1] 7 [(10, ⟨0.9, 0⟩), (11, ⟨0.3, 0⟩)] [(10, 0), (11, 1)] rfl
    (List.cons_ne_nil _ _)
